import Mathlib

/-!
Shallow embedding of `src/main.rs` from jailuthra/chord-generator:
a brute-force guitar chord fingering generator.  The Rust program
enumerates all fingerings of 6 strings (muted or fret 0..9), keeps the
ones sounding exactly the requested chord's pitch classes, filters for
playability and sorts by a heuristic score.

Machine integers are modelled as `Nat`/`Int` with explicit `% 2^w` where
the Rust arithmetic can wrap (`u8` addition in pitch arithmetic, and the
`i8 → u32` cast plus `u32` accumulation in the scorer, taken with
release-profile wrapping semantics).
-/

namespace ChordGen

/-- `MAX_FRETS` from the source. -/
def MAX_FRETS : Nat := 9

/-- The 12 pitch classes, `C = 0 … B = 11` (the Rust `Note` enum). -/
abbrev Note := Fin 12

def Note.C : Note := ⟨0, by omega⟩
def Note.CSharp : Note := ⟨1, by omega⟩
def Note.D : Note := ⟨2, by omega⟩
def Note.DSharp : Note := ⟨3, by omega⟩
def Note.E : Note := ⟨4, by omega⟩
def Note.F : Note := ⟨5, by omega⟩
def Note.FSharp : Note := ⟨6, by omega⟩
def Note.G : Note := ⟨7, by omega⟩
def Note.GSharp : Note := ⟨8, by omega⟩
def Note.A : Note := ⟨9, by omega⟩
def Note.ASharp : Note := ⟨10, by omega⟩
def Note.B : Note := ⟨11, by omega⟩

/-- `impl Add<u8> for Note`: `from_u8((to_u8(self) + rhs) % 12)`.
The `u8` sum wraps modulo `2^8` (release semantics) before the `% 12`. -/
def Note.addSemis (p : Note) (k : Nat) : Note :=
  ⟨(p.val + k) % 256 % 12, by omega⟩

/-- `Finger(Option<u8>)` restricted to the values the odometer produces:
`none` is a muted string, `some x` a finger on fret `x ∈ 0..9`. -/
abbrev Finger := Option (Fin 10)

/-- `impl Into<i8> for Finger`: muted is `-1`, a fret is its value. -/
def Finger.toI8 (f : Finger) : Int :=
  match f with
  | none => -1
  | some v => (v.val : Int)

/-- `impl Add<Finger> for Note`: `None` stays `None`, a fret is added as
a semitone offset. -/
def Note.addFinger (p : Note) (f : Finger) : Option Note :=
  match f with
  | none => none
  | some v => some (p.addSemis v.val)

/-- The `Chord` enum: 18 chord qualities. -/
inductive Chord where
  | Major | Minor | Augmented | Diminished | Seventh | MajorSeventh
  | MinorSeventh | Sus2 | Sus4 | MinorMajorSeventh | DiminishedSeventh
  | MajorNinth | MinorNinth | AddNinth | AddEleventh | MinorSixth
  | MajorSixth | AddSixthAddNinth
  deriving DecidableEq, Repr

/-- `Chord::notes`: the chord tones, as `root + interval` offsets. -/
def Chord.notes (c : Chord) (root : Note) : List Note :=
  match c with
  | Chord.Major => [root, root.addSemis 4, root.addSemis 7]
  | Chord.Minor => [root, root.addSemis 3, root.addSemis 7]
  | Chord.Sus2 => [root, root.addSemis 2, root.addSemis 7]
  | Chord.Sus4 => [root, root.addSemis 5, root.addSemis 7]
  | Chord.Augmented => [root, root.addSemis 4, root.addSemis 8]
  | Chord.Diminished => [root, root.addSemis 3, root.addSemis 6]
  | Chord.MinorSixth => [root, root.addSemis 3, root.addSemis 7, root.addSemis 9]
  | Chord.MajorSixth => [root, root.addSemis 4, root.addSemis 7, root.addSemis 9]
  | Chord.Seventh => [root, root.addSemis 4, root.addSemis 7, root.addSemis 10]
  | Chord.MajorSeventh => [root, root.addSemis 4, root.addSemis 7, root.addSemis 11]
  | Chord.MinorSeventh => [root, root.addSemis 3, root.addSemis 7, root.addSemis 10]
  | Chord.MinorMajorSeventh => [root, root.addSemis 3, root.addSemis 7, root.addSemis 11]
  | Chord.DiminishedSeventh => [root, root.addSemis 3, root.addSemis 6, root.addSemis 9]
  | Chord.MajorNinth => [root, root.addSemis 4, root.addSemis 7, root.addSemis 11, root.addSemis 14]
  | Chord.MinorNinth => [root, root.addSemis 3, root.addSemis 7, root.addSemis 10, root.addSemis 14]
  | Chord.AddNinth => [root, root.addSemis 4, root.addSemis 7, root.addSemis 14]
  | Chord.AddEleventh => [root, root.addSemis 4, root.addSemis 7, root.addSemis 17]
  | Chord.AddSixthAddNinth => [root, root.addSemis 4, root.addSemis 7, root.addSemis 9, root.addSemis 14]

/-- `type Tuning = [Note; 6]`, as a length-6 list. -/
abbrev Tuning := List Note

/-- `DEFAULT_TUNING`: standard tuning E A D G B E (low to high). -/
def DEFAULT_TUNING : Tuning := [Note.E, Note.A, Note.D, Note.G, Note.B, Note.E]

/-- `type Fingering = [Finger; 6]`, as a length-6 list; the leftmost
element is the lowest string. -/
abbrev Fingering := List Finger

/-- `next_fingering`: one odometer step.  The Rust iterates the array
from the right; here the tail (the strings to the right) is stepped
first and the head only acts on carry.  Returns the new state and the
Rust function's boolean (false = the space is exhausted). -/
def next_fingering (f : Fingering) : Fingering × Bool :=
  match f with
  | [] => ([], false)
  | fg :: rest =>
    let step := next_fingering rest
    if step.2 then
      (fg :: step.1, true)
    else
      match fg with
      | none => (some ⟨0, by omega⟩ :: step.1, true)
      | some x =>
        if h : x.val = MAX_FRETS then
          (none :: step.1, false)
        else
          (some ⟨x.val + 1, by have hx := x.isLt; simp [MAX_FRETS] at h; omega⟩ :: step.1, true)

/-- The `played` vector collected inside `compactness`: the `Into<i8>`
values of the strings whose value is strictly positive, i.e. the
fretted strings (open and muted strings are filtered out). -/
def playedFrets (f : Fingering) : List Int :=
  f.filterMap fun fg => if 0 < fg.toI8 then some fg.toI8 else none

/-- `compactness`: fret span of the fingering over its *fretted*
strings; `i8::MAX = 127` when no string is fretted. -/
def compactness (f : Fingering) : Int :=
  match playedFrets f with
  | [] => 127
  | x :: xs => xs.foldl max x - xs.foldl min x

/-- Wrapping `u32` addition. -/
def u32add (a b : Nat) : Nat := (a + b) % 4294967296

/-- The `as u32` cast of an `i8` value (two's complement reinterpretation). -/
def i8AsU32 (v : Int) : Nat := (v % 4294967296).toNat

/-- The per-string contribution inside `fingering_score`'s loop:
open string 15, fret `x ≥ 1` gives `10 - x`, muted 10. -/
def stringTerm (fg : Finger) : Nat :=
  match fg with
  | some x => if x.val = 0 then 15 else 10 - x.val
  | none => 10

/-- `fingering_score`: a `u32` accumulator starting from
`(5 - compactness) as u32` and adding every string's term. -/
def fingering_score (f : Fingering) : Nat :=
  f.foldl (fun sum fg => u32add sum (stringTerm fg))
    (u32add 0 (i8AsU32 (5 - compactness f)))

/-- `get_played_notes`: per string, the sounded pitch class (or `none`). -/
def get_played_notes (t : Tuning) (f : Fingering) : List (Option Note) :=
  List.zipWith Note.addFinger t f

/-- The first membership check in `gen_inversions`'s loop body:
every sounded note is found among the chord tones. -/
def all_played_notes_valid (root : Note) (c : Chord) (t : Tuning) (f : Fingering) : Bool :=
  (get_played_notes t f).all fun pn =>
    match pn with
    | none => true
    | some note => ((c.notes root).find? (fun x => x == note)).isSome

/-- The second membership check: every chord tone is held somewhere. -/
def all_chord_notes_are_held (root : Note) (c : Chord) (t : Tuning) (f : Fingering) : Bool :=
  (c.notes root).all fun note =>
    ((get_played_notes t f).find? (fun held => held == some note)).isSome

/-- The acceptance test of `gen_inversions`. -/
def inversion_test (root : Note) (c : Chord) (t : Tuning) (f : Fingering) : Bool :=
  all_played_notes_valid root c t f && all_chord_notes_are_held root c t f

/-- The enumeration loop of `gen_inversions` stripped of the test:
emit the current state, step, stop when the step reports exhaustion.
`fuel` bounds the recursion; `11^6` steps reach the end of the space. -/
def runOdometer : Nat → Fingering → List Fingering
  | 0, _ => []
  | fuel + 1, f =>
    let step := next_fingering f
    f :: (if step.2 then runOdometer fuel step.1 else [])

/-- The loop of `gen_inversions`: like `runOdometer` but keeping only
states passing `test`. -/
def genLoop (test : Fingering → Bool) : Nat → Fingering → List Fingering
  | 0, _ => []
  | fuel + 1, f =>
    let step := next_fingering f
    (if test f then [f] else []) ++ (if step.2 then genLoop test fuel step.1 else [])

/-- `gen_inversions`: walk the whole fingering space from the all-muted
state, keeping the fingerings that sound exactly the chord. -/
def gen_inversions (root : Note) (c : Chord) (t : Tuning) : List Fingering :=
  genLoop (inversion_test root c t) (11 ^ 6) (List.replicate 6 none)

/-- `is_compact`: span below 4 frets. -/
def is_compact (f : Fingering) : Bool := compactness f < 4

/-- The zone state machine inside `is_contiguous`: zone 0 before the
sounded run, zone 1 inside it, zone 2 after it; reaching a further
string while in zone 2 returns false. -/
def contiguousLoop : Nat → Fingering → Bool
  | _, [] => true
  | 0, fg :: rest => contiguousLoop (if fg.isSome then 1 else 0) rest
  | 1, fg :: rest => contiguousLoop (if fg.isNone then 2 else 1) rest
  | _, _ :: _ => false

/-- `is_contiguous`. -/
def is_contiguous (f : Fingering) : Bool := contiguousLoop 0 f

/-- `at_least_four_strings`. -/
def at_least_four_strings (f : Fingering) : Bool :=
  4 ≤ (f.filter (fun fg => fg.isSome)).length

/-- The comparator of `main`'s `sorted_by` call: `cmp(score(b), score(a))`,
i.e. sort ascending in this relation = descending by score. -/
def score_ge (a b : Fingering) : Bool :=
  fingering_score b ≤ fingering_score a

/-- The filter survivors for one `(root, chord)` cell of `main`'s map. -/
def survivors (root : Note) (c : Chord) : List Fingering :=
  (((gen_inversions root c DEFAULT_TUNING).filter is_compact).filter
    is_contiguous).filter at_least_four_strings

/-- One cell of the report built in `main`: survivors sorted by
descending score with a stable sort (Rust's `sorted_by` is stable). -/
def report (root : Note) (c : Chord) : List Fingering :=
  (survivors root c).mergeSort score_ge

/-- The per-string score contributions summed (specification side of the
scorer, before the `u32` wrapping is taken into account). -/
def stringSum (f : Fingering) : Nat := (f.map stringTerm).sum

/-- The open-heavy C-major shape x32010. -/
def x32010 : Fingering := [none, some 3, some 2, some 0, some 1, some 0]

/-! ### The odometer as a base-11 counter

`rank` reads a fingering as a 6-digit base-11 number (muted = digit 0,
fret `x` = digit `x + 1`, leftmost string most significant); `unrank`
inverts it.  `next_fingering` is exactly `+1` modulo `11 ^ 6`. -/

/-- The base-11 digit of one string: muted = 0, fret `x` = `x + 1`. -/
def digitOf (fg : Finger) : Nat :=
  match fg with
  | none => 0
  | some x => x.val + 1

/-- A fingering as a base-11 number, leftmost string most significant. -/
def rank : Fingering → Nat
  | [] => 0
  | fg :: rest => digitOf fg * 11 ^ rest.length + rank rest

/-- Inverse of `digitOf` (on digits `0..10`; larger inputs are reduced). -/
def fingerOfDigit (d : Nat) : Finger :=
  if d % 11 = 0 then none else some ⟨(d % 11 - 1) % 10, by omega⟩

/-- The fingering of rank `k` (mod `11 ^ n`) among length-`n` fingerings. -/
def unrank : Nat → Nat → Fingering
  | 0, _ => []
  | n + 1, k => fingerOfDigit (k / 11 ^ n) :: unrank n k

theorem digitOf_lt (fg : Finger) : digitOf fg < 11 := by
  cases fg with
  | none => simp [digitOf]
  | some x => have := x.isLt; simp [digitOf]; omega

theorem fingerOfDigit_digitOf (fg : Finger) : fingerOfDigit (digitOf fg) = fg := by
  cases fg with
  | none => simp [digitOf, fingerOfDigit]
  | some x =>
    have hx := x.isLt
    have h1 : (x.val + 1) % 11 = x.val + 1 := Nat.mod_eq_of_lt (by omega)
    simp only [digitOf, fingerOfDigit, h1]
    rw [if_neg (by omega)]
    congr 1
    exact Fin.ext (by show (x.val + 1 - 1) % 10 = x.val; omega)

theorem digitOf_fingerOfDigit (d : Nat) : digitOf (fingerOfDigit d) = d % 11 := by
  unfold fingerOfDigit
  split
  · simp only [digitOf]
    omega
  · simp only [digitOf]
    omega

theorem fingerOfDigit_congr {a b : Nat} (h : a % 11 = b % 11) :
    fingerOfDigit a = fingerOfDigit b := by
  unfold fingerOfDigit
  by_cases h0 : a % 11 = 0
  · rw [if_pos h0, if_pos (by omega)]
  · rw [if_neg h0, if_neg (by omega)]
    congr 1
    exact Fin.ext (by show (a % 11 - 1) % 10 = (b % 11 - 1) % 10; omega)

theorem length_unrank (n k : Nat) : (unrank n k).length = n := by
  induction n generalizing k with
  | zero => rfl
  | succ n ih => simp [unrank, ih]

theorem rank_lt (f : Fingering) : rank f < 11 ^ f.length := by
  induction f with
  | nil => simp [rank]
  | cons fg rest ih =>
    have hd := digitOf_lt fg
    have hP : 0 < 11 ^ rest.length := Nat.pos_pow_of_pos _ (by omega)
    calc digitOf fg * 11 ^ rest.length + rank rest
        < digitOf fg * 11 ^ rest.length + 11 ^ rest.length := by omega
      _ = (digitOf fg + 1) * 11 ^ rest.length := by ring
      _ ≤ 11 * 11 ^ rest.length := Nat.mul_le_mul_right _ (by omega)
      _ = 11 ^ (fg :: rest).length := by rw [List.length_cons, pow_succ]; ring

theorem unrank_add_mul (n a k : Nat) : unrank n (a * 11 ^ n + k) = unrank n k := by
  induction n generalizing a with
  | zero => rfl
  | succ n ih =>
    have hP : 0 < 11 ^ n := Nat.pos_pow_of_pos _ (by omega)
    have hdiv : (a * 11 ^ (n + 1) + k) / 11 ^ n = 11 * a + k / 11 ^ n := by
      have : a * 11 ^ (n + 1) + k = 11 ^ n * (11 * a) + k := by rw [pow_succ]; ring
      rw [this, Nat.mul_add_div hP]
    simp only [unrank]
    congr 1
    · apply fingerOfDigit_congr
      rw [hdiv]
      omega
    · have h2 : a * 11 ^ (n + 1) + k = (a * 11) * 11 ^ n + k := by rw [pow_succ]; ring
      rw [h2, ih]

theorem rank_unrank (n k : Nat) : rank (unrank n k) = k % 11 ^ n := by
  induction n generalizing k with
  | zero => simp [unrank, rank, Nat.mod_one]
  | succ n ih =>
    show digitOf (fingerOfDigit (k / 11 ^ n)) * 11 ^ (unrank n k).length + rank (unrank n k) = _
    rw [digitOf_fingerOfDigit, length_unrank, ih, pow_succ, Nat.mod_mul]
    ring

theorem unrank_rank (f : Fingering) : unrank f.length (rank f) = f := by
  induction f with
  | nil => rfl
  | cons fg rest ih =>
    have hP : 0 < 11 ^ rest.length := Nat.pos_pow_of_pos _ (by omega)
    show unrank (rest.length + 1) (digitOf fg * 11 ^ rest.length + rank rest) = fg :: rest
    have hdiv : (digitOf fg * 11 ^ rest.length + rank rest) / 11 ^ rest.length = digitOf fg := by
      rw [show digitOf fg * 11 ^ rest.length + rank rest
            = 11 ^ rest.length * digitOf fg + rank rest by ring,
        Nat.mul_add_div hP, Nat.div_eq_of_lt (rank_lt rest)]
      omega
    show fingerOfDigit _ :: unrank rest.length _ = fg :: rest
    rw [hdiv, fingerOfDigit_digitOf, unrank_add_mul, ih]

theorem unrank_zero (n : Nat) : unrank n 0 = List.replicate n none := by
  induction n with
  | zero => rfl
  | succ n ih => simp [unrank, fingerOfDigit, ih, List.replicate_succ]

theorem next_length (f : Fingering) : (next_fingering f).1.length = f.length := by
  induction f with
  | nil => rfl
  | cons fg rest ih =>
    simp only [next_fingering]
    cases hb : (next_fingering rest).2 with
    | true => simp [ih]
    | false =>
      cases fg with
      | none => simp [ih]
      | some x =>
        by_cases hx : x.val = MAX_FRETS
        · simp [hx, ih]
        · simp [hx, ih]

theorem next_snd (f : Fingering) :
    ((next_fingering f).2 = false ↔ rank f + 1 = 11 ^ f.length) := by
  induction f with
  | nil => simp [next_fingering, rank]
  | cons fg rest ih =>
    have hrlt := rank_lt rest
    have hd := digitOf_lt fg
    have hP : 0 < 11 ^ rest.length := Nat.pos_pow_of_pos _ (by omega)
    have hDP : digitOf fg * 11 ^ rest.length ≤ 10 * 11 ^ rest.length :=
      Nat.mul_le_mul_right _ (by omega)
    simp only [next_fingering, rank, List.length_cons, pow_succ]
    cases hb : (next_fingering rest).2 with
    | true =>
      have hne : rank rest + 1 ≠ 11 ^ rest.length := fun heq => by
        rw [ih.mpr heq] at hb; exact Bool.noConfusion hb
      simp only [if_true]
      constructor
      · intro h; exact absurd h (by simp)
      · intro h; exfalso; omega
    | false =>
      have hreq : rank rest + 1 = 11 ^ rest.length := ih.mp hb
      cases fg with
      | none =>
        simp only [digitOf, Nat.zero_mul, Nat.zero_add, if_false]
        constructor
        · intro h; exact absurd h (by simp)
        · intro h; exfalso; omega
      | some x =>
        by_cases hx : x.val = MAX_FRETS
        · have hx9 : x.val = 9 := by simpa [MAX_FRETS] using hx
          simp only [if_false, dif_pos hx, digitOf, hx9]
          constructor
          · intro _; omega
          · intro _; rfl
        · have hx8 : x.val ≤ 8 := by have := x.isLt; simp [MAX_FRETS] at hx; omega
          simp only [if_false, dif_neg hx, digitOf]
          have hb1 : (x.val + 1) * 11 ^ rest.length ≤ 9 * 11 ^ rest.length :=
            Nat.mul_le_mul_right _ (by omega)
          constructor
          · intro h; exact absurd h (by simp)
          · intro h; exfalso; omega

theorem next_rank (f : Fingering) :
    rank (next_fingering f).1 = (rank f + 1) % 11 ^ f.length := by
  induction f with
  | nil => simp [next_fingering, rank]
  | cons fg rest ih =>
    have hrlt := rank_lt rest
    have hd := digitOf_lt fg
    have hP : 0 < 11 ^ rest.length := Nat.pos_pow_of_pos _ (by omega)
    have hDP : digitOf fg * 11 ^ rest.length ≤ 10 * 11 ^ rest.length :=
      Nat.mul_le_mul_right _ (by omega)
    have hlen := next_length rest
    simp only [next_fingering, rank, List.length_cons, pow_succ]
    cases hb : (next_fingering rest).2 with
    | true =>
      have hne : rank rest + 1 ≠ 11 ^ rest.length := fun heq => by
        rw [(next_snd rest).mpr heq] at hb; exact Bool.noConfusion hb
      have hmod : rank (next_fingering rest).1 = rank rest + 1 := by
        rw [ih, Nat.mod_eq_of_lt (by omega)]
      simp only [if_true, rank, hlen, hmod]
      rw [Nat.mod_eq_of_lt (by omega)]
      ring
    | false =>
      have hreq : rank rest + 1 = 11 ^ rest.length := (next_snd rest).mp hb
      have hmod : rank (next_fingering rest).1 = 0 := by
        rw [ih, hreq, Nat.mod_self]
      cases fg with
      | none =>
        simp only [if_false, rank, hlen, hmod, digitOf]
        rw [Nat.mod_eq_of_lt (by omega)]
        omega
      | some x =>
        by_cases hx : x.val = MAX_FRETS
        · have hx9 : x.val = 9 := by simpa [MAX_FRETS] using hx
          simp only [if_false, dif_pos hx, rank, hlen, hmod, digitOf, hx9]
          rw [show (9 + 1) * 11 ^ rest.length + rank rest + 1 = 11 ^ rest.length * 11 by omega,
            Nat.mod_self]
          omega
        · have hx8 : x.val ≤ 8 := by have := x.isLt; simp [MAX_FRETS] at hx; omega
          simp only [if_false, dif_neg hx, rank, hlen, hmod, digitOf]
          have hb1 : (x.val + 1) * 11 ^ rest.length ≤ 9 * 11 ^ rest.length :=
            Nat.mul_le_mul_right _ (by omega)
          have hb2 : (x.val + 1 + 1) * 11 ^ rest.length
              = (x.val + 1) * 11 ^ rest.length + 11 ^ rest.length := by ring
          rw [Nat.mod_eq_of_lt (by omega)]
          omega

theorem next_fst_eq (f : Fingering) :
    (next_fingering f).1 = unrank f.length ((rank f + 1) % 11 ^ f.length) := by
  have h1 := next_length f
  have h2 := next_rank f
  calc (next_fingering f).1
      = unrank (next_fingering f).1.length (rank (next_fingering f).1) :=
        (unrank_rank _).symm
    _ = unrank f.length ((rank f + 1) % 11 ^ f.length) := by rw [h1, h2]

theorem runOdometer_eq :
    ∀ (fuel n k : Nat), k < 11 ^ n → fuel = 11 ^ n - k →
    runOdometer fuel (unrank n k) = (List.range' k fuel).map (unrank n) := by
  intro fuel
  induction fuel with
  | zero => intro n k hk hf; omega
  | succ fuel ih =>
    intro n k hk hf
    have hrank : rank (unrank n k) = k := by rw [rank_unrank, Nat.mod_eq_of_lt hk]
    have hlen : (unrank n k).length = n := length_unrank n k
    by_cases hend : k + 1 = 11 ^ n
    · have hb : (next_fingering (unrank n k)).2 = false :=
        (next_snd _).mpr (by rw [hrank, hlen]; omega)
      have hf0 : fuel = 0 := by omega
      subst hf0
      simp [runOdometer, hb, List.range']
    · have hklt : k + 1 < 11 ^ n := by omega
      have hb : (next_fingering (unrank n k)).2 = true := by
        rcases Bool.eq_false_or_eq_true ((next_fingering (unrank n k)).2) with h | h
        · exact h
        · exfalso
          have := (next_snd _).mp h
          rw [hrank, hlen] at this
          omega
      have hnext : (next_fingering (unrank n k)).1 = unrank n (k + 1) := by
        rw [next_fst_eq, hrank, hlen, Nat.mod_eq_of_lt hklt]
      simp only [runOdometer, hb, if_true]
      rw [hnext, ih n (k + 1) hklt (by omega), List.range'_succ]
      simp

/-- Every length-6 fingering, listed in the odometer's visiting order. -/
def allFingerings : List Fingering := (List.range' 0 (11 ^ 6)).map (unrank 6)

theorem runOdometer_allMuted :
    runOdometer (11 ^ 6) (List.replicate 6 none) = allFingerings := by
  rw [show (List.replicate 6 (none : Finger)) = unrank 6 0 from (unrank_zero 6).symm,
    runOdometer_eq (11 ^ 6) 6 0 (by norm_num) (by omega)]
  rfl

theorem length_allFingerings : allFingerings.length = 1771561 := by
  simp [allFingerings]

theorem mem_allFingerings {f : Fingering} (h : f.length = 6) : f ∈ allFingerings := by
  rw [show f = unrank 6 (rank f) by rw [← h, unrank_rank]]
  apply List.mem_map_of_mem
  rw [List.mem_range']
  exact ⟨rank f, by simpa [h] using rank_lt f, by omega⟩

theorem nodup_allFingerings : allFingerings.Nodup := by
  apply List.Nodup.map_on _ (List.nodup_range' _ _)
  intro a ha b hb hab
  simp only [List.mem_range'] at ha hb
  obtain ⟨i, hi, rfl⟩ := ha
  obtain ⟨j, hj, rfl⟩ := hb
  have := congrArg rank hab
  rw [rank_unrank, rank_unrank] at this
  simp only [Nat.zero_add, Nat.one_mul] at this ⊢
  rw [Nat.mod_eq_of_lt hi, Nat.mod_eq_of_lt hj] at this
  omega

theorem genLoop_eq_filter (test : Fingering → Bool) :
    ∀ (fuel : Nat) (f : Fingering),
    genLoop test fuel f = (runOdometer fuel f).filter test := by
  intro fuel
  induction fuel with
  | zero => intro f; rfl
  | succ fuel ih =>
    intro f
    simp only [genLoop, runOdometer, List.filter_cons]
    cases hb : (next_fingering f).2 with
    | true => cases ht : test f <;> simp [ht, ih]
    | false => cases ht : test f <;> simp [ht, ih]

theorem gen_inversions_eq (root : Note) (c : Chord) (t : Tuning) :
    gen_inversions root c t = allFingerings.filter (inversion_test root c t) := by
  unfold gen_inversions
  rw [genLoop_eq_filter, runOdometer_allMuted]

theorem mem_gen_inversions {root : Note} {c : Chord} {t : Tuning} {f : Fingering}
    (hf : f.length = 6) :
    f ∈ gen_inversions root c t ↔ inversion_test root c t f = true := by
  rw [gen_inversions_eq, List.mem_filter]
  exact ⟨fun h => h.2, fun h => ⟨mem_allFingerings hf, h⟩⟩

/-! ### Facts about `compactness` -/

theorem foldl_max_mem (x : Int) (xs : List Int) : xs.foldl max x ∈ x :: xs := by
  induction xs generalizing x with
  | nil => simp
  | cons y ys ih =>
    simp only [List.foldl_cons]
    rcases List.mem_cons.mp (ih (max x y)) with h1 | h1
    · rcases max_choice x y with hm | hm
      · rw [h1, hm]; exact List.mem_cons_self _ _
      · rw [h1, hm]; exact List.mem_cons_of_mem _ (List.mem_cons_self _ _)
    · exact List.mem_cons_of_mem _ (List.mem_cons_of_mem _ h1)

theorem le_foldl_max (x : Int) (xs : List Int) : ∀ y ∈ x :: xs, y ≤ xs.foldl max x := by
  revert x
  induction xs with
  | nil =>
    intro x y hy
    simp only [List.foldl_nil]
    simp at hy
    omega
  | cons z zs ih =>
    intro x y hy
    simp only [List.foldl_cons]
    have hbase : max x z ≤ zs.foldl max (max x z) :=
      ih (max x z) (max x z) (List.mem_cons_self _ _)
    rcases List.mem_cons.mp hy with h1 | h1
    · exact le_trans (h1.le.trans (le_max_left x z)) hbase
    · rcases List.mem_cons.mp h1 with h2 | h2
      · exact le_trans (h2.le.trans (le_max_right x z)) hbase
      · exact ih (max x z) y (List.mem_cons_of_mem _ h2)

theorem foldl_min_mem (x : Int) (xs : List Int) : xs.foldl min x ∈ x :: xs := by
  induction xs generalizing x with
  | nil => simp
  | cons y ys ih =>
    simp only [List.foldl_cons]
    rcases List.mem_cons.mp (ih (min x y)) with h1 | h1
    · rcases min_choice x y with hm | hm
      · rw [h1, hm]; exact List.mem_cons_self _ _
      · rw [h1, hm]; exact List.mem_cons_of_mem _ (List.mem_cons_self _ _)
    · exact List.mem_cons_of_mem _ (List.mem_cons_of_mem _ h1)

theorem foldl_min_le (x : Int) (xs : List Int) : ∀ y ∈ x :: xs, xs.foldl min x ≤ y := by
  revert x
  induction xs with
  | nil =>
    intro x y hy
    simp only [List.foldl_nil]
    simp at hy
    omega
  | cons z zs ih =>
    intro x y hy
    simp only [List.foldl_cons]
    have hbase : zs.foldl min (min x z) ≤ min x z :=
      ih (min x z) (min x z) (List.mem_cons_self _ _)
    rcases List.mem_cons.mp hy with h1 | h1
    · exact le_trans (le_trans hbase (min_le_left x z)) h1.ge
    · rcases List.mem_cons.mp h1 with h2 | h2
      · exact le_trans (le_trans hbase (min_le_right x z)) h2.ge
      · exact ih (min x z) y (List.mem_cons_of_mem _ h2)

theorem mem_playedFrets {f : Fingering} {z : Int} :
    z ∈ playedFrets f ↔ ∃ x : Fin 10, some x ∈ f ∧ 1 ≤ x.val ∧ z = (x.val : Int) := by
  simp only [playedFrets, List.mem_filterMap]
  constructor
  · rintro ⟨fg, hmem, hz⟩
    cases fg with
    | none => simp [Finger.toI8] at hz
    | some x =>
      by_cases hx : (0 : Int) < Finger.toI8 (some x)
      · rw [if_pos hx] at hz
        obtain rfl : Finger.toI8 (some x) = z := Option.some_inj.mp hz
        have : 1 ≤ x.val := by simp [Finger.toI8] at hx; omega
        exact ⟨x, hmem, this, by simp [Finger.toI8]⟩
      · rw [if_neg hx] at hz
        exact absurd hz (by simp)
  · rintro ⟨x, hmem, hx1, rfl⟩
    refine ⟨some x, hmem, ?_⟩
    rw [if_pos (by simp [Finger.toI8]; omega)]
    simp [Finger.toI8]

theorem playedFrets_eq_nil {f : Fingering}
    (h : ∀ fg ∈ f, fg = none ∨ fg = some ⟨0, by omega⟩) : playedFrets f = [] := by
  unfold playedFrets
  rw [List.filterMap_eq_nil_iff]
  intro fg hfg
  rcases h fg hfg with rfl | rfl <;> simp [Finger.toI8]

theorem compactness_nil {f : Fingering} (h : playedFrets f = []) :
    compactness f = 127 := by
  unfold compactness
  rw [h]

theorem compactness_cons {f : Fingering} {x : Int} {xs : List Int}
    (h : playedFrets f = x :: xs) :
    compactness f = xs.foldl max x - xs.foldl min x := by
  unfold compactness
  rw [h]

theorem playedFrets_bounds {f : Fingering} : ∀ z ∈ playedFrets f, 1 ≤ z ∧ z ≤ 9 := by
  intro z hz
  obtain ⟨y, _, hy1, rfl⟩ := mem_playedFrets.mp hz
  have := y.isLt
  omega

theorem compactness_nonneg_or_sentinel (f : Fingering) :
    compactness f = 127 ∨ (0 ≤ compactness f ∧ compactness f ≤ 8) := by
  cases hL : playedFrets f with
  | nil => exact Or.inl (compactness_nil hL)
  | cons x xs =>
    right
    rw [compactness_cons hL]
    have hmax := le_foldl_max x xs x (List.mem_cons_self _ _)
    have hmin := foldl_min_le x xs x (List.mem_cons_self _ _)
    have hbounds : ∀ z ∈ x :: xs, 1 ≤ z ∧ z ≤ 9 := by
      rw [← hL]; exact playedFrets_bounds
    have h1 := hbounds _ (foldl_max_mem x xs)
    have h2 := hbounds _ (foldl_min_mem x xs)
    constructor <;> omega

/-! ### Facts about `fingering_score` -/

theorem i8AsU32_lt (v : Int) : i8AsU32 v < 4294967296 := by
  unfold i8AsU32
  have h1 := Int.emod_nonneg v (show (4294967296 : Int) ≠ 0 by norm_num)
  have h2 := Int.emod_lt_of_pos v (show (0 : Int) < 4294967296 by norm_num)
  omega

theorem foldl_u32 (l : List Finger) : ∀ a : Nat, a < 4294967296 →
    l.foldl (fun s fg => u32add s (stringTerm fg)) a
      = (a + (l.map stringTerm).sum) % 4294967296 := by
  induction l with
  | nil =>
    intro a ha
    simp [Nat.mod_eq_of_lt ha]
  | cons fg rest ih =>
    intro a ha
    simp only [List.foldl_cons, List.map_cons, List.sum_cons]
    rw [ih (u32add a (stringTerm fg)) (by unfold u32add; omega)]
    unfold u32add
    omega

theorem fingering_score_eq (f : Fingering) :
    fingering_score f = (i8AsU32 (5 - compactness f) + stringSum f) % 4294967296 := by
  unfold fingering_score stringSum
  rw [foldl_u32 f _ (by unfold u32add; have := i8AsU32_lt (5 - compactness f); omega)]
  unfold u32add
  have := i8AsU32_lt (5 - compactness f)
  omega

theorem fingering_score_int (f : Fingering) :
    (fingering_score f : Int) = (5 - compactness f + stringSum f) % 4294967296 := by
  rw [fingering_score_eq]
  have h1 := Int.emod_nonneg (5 - compactness f) (show (4294967296 : Int) ≠ 0 by norm_num)
  push_cast
  rw [i8AsU32, Int.toNat_of_nonneg h1, Int.emod_add_emod]

theorem stringTerm_le (fg : Finger) : stringTerm fg ≤ 15 := by
  cases fg with
  | none => simp [stringTerm]
  | some x =>
    simp only [stringTerm]
    split <;> omega

theorem stringSum_le (f : Fingering) : stringSum f ≤ 15 * f.length := by
  unfold stringSum
  induction f with
  | nil => simp
  | cons fg rest ih =>
    simp only [List.map_cons, List.sum_cons, List.length_cons]
    have := stringTerm_le fg
    omega

/-! ### The inversion test, characterised -/

theorem all_played_valid_iff {root : Note} {c : Chord} {t : Tuning} {f : Fingering} :
    all_played_notes_valid root c t f = true ↔
      ∀ n : Note, some n ∈ get_played_notes t f → n ∈ c.notes root := by
  unfold all_played_notes_valid
  rw [List.all_eq_true]
  constructor
  · intro h n hn
    have h2 := h (some n) hn
    simp only [List.find?_isSome, beq_iff_eq] at h2
    obtain ⟨x, hx, rfl⟩ := h2
    exact hx
  · intro h pn hpn
    cases pn with
    | none => rfl
    | some n =>
      simp only [List.find?_isSome, beq_iff_eq]
      exact ⟨n, h n hpn, rfl⟩

theorem all_held_iff {root : Note} {c : Chord} {t : Tuning} {f : Fingering} :
    all_chord_notes_are_held root c t f = true ↔
      ∀ n ∈ c.notes root, some n ∈ get_played_notes t f := by
  unfold all_chord_notes_are_held
  rw [List.all_eq_true]
  constructor
  · intro h n hn
    have h2 := h n hn
    simp only [List.find?_isSome, beq_iff_eq] at h2
    obtain ⟨x, hx, rfl⟩ := h2
    exact hx
  · intro h n hn
    simp only [List.find?_isSome, beq_iff_eq]
    exact ⟨some n, h n hn, rfl⟩

theorem inversion_test_iff {root : Note} {c : Chord} {t : Tuning} {f : Fingering} :
    inversion_test root c t f = true ↔
      ((∀ n : Note, some n ∈ get_played_notes t f → n ∈ c.notes root) ∧
       (∀ n ∈ c.notes root, some n ∈ get_played_notes t f)) := by
  unfold inversion_test
  rw [Bool.and_eq_true, all_played_valid_iff, all_held_iff]

/-! ### Claim theorems -/

/-- C1: for every root pitch class, chord quality and tuning, a fingering
is in the output of the inversion generator iff (1) every sounded
string's resulting pitch class is among the chord tones and (2) every
chord tone is produced by at least one sounded string; duplicates among
sounded pitch classes violate neither condition. -/
theorem C1_inversion_membership (root : Note) (c : Chord) (t : Tuning) (f : Fingering)
    (ht : t.length = 6) (hf : f.length = 6) :
    f ∈ gen_inversions root c t ↔
      ((∀ n : Note, some n ∈ get_played_notes t f → n ∈ c.notes root) ∧
       (∀ n ∈ c.notes root, some n ∈ get_played_notes t f)) := by
  rw [mem_gen_inversions hf, inversion_test_iff]

/-- Witness for C1 at root C, Major, default tuning and the x32010 shape. -/
theorem C1_witness :
    DEFAULT_TUNING.length = 6 ∧ x32010.length = 6 ∧
    (x32010 ∈ gen_inversions Note.C Chord.Major DEFAULT_TUNING ↔
      ((∀ n : Note, some n ∈ get_played_notes DEFAULT_TUNING x32010 →
          n ∈ Chord.notes Chord.Major Note.C) ∧
       (∀ n ∈ Chord.notes Chord.Major Note.C,
          some n ∈ get_played_notes DEFAULT_TUNING x32010))) :=
  ⟨rfl, rfl, C1_inversion_membership Note.C Chord.Major DEFAULT_TUNING x32010 rfl rfl⟩

/-- C2 counterexample: a fingering with sounded frets 0 and 4 has code
compactness 0 (the open string is ignored) and PASSES the filter,
contradicting the claim that it has compactness 4 and fails. -/
theorem C2_counterexample :
    compactness [some 0, some 4, none, none, none, none] = 0 ∧
    is_compact [some 0, some 4, none, none, none, none] = true := by
  decide

/-- C2 (amended): the compactness filter accepts a fingering iff at
least one string is fretted (fret ≥ 1) and every two fretted frets
differ by less than 4; open strings are ignored by `compactness`, so
sounded frets 0,3 and 0,4 both have compactness 0 and pass, and a
fingering with no sounded string fails. -/
theorem C2_compactness_amended :
    (∀ f : Fingering,
      (is_compact f = true ↔
        ((∃ x : Fin 10, some x ∈ f ∧ 1 ≤ x.val) ∧
         ∀ a b : Fin 10, some a ∈ f → some b ∈ f → 1 ≤ a.val → 1 ≤ b.val →
           (a.val : Int) - (b.val : Int) < 4))) ∧
    compactness [some 0, some 3, none, none, none, none] = 0 ∧
    is_compact [some 0, some 3, none, none, none, none] = true ∧
    compactness [some 0, some 4, none, none, none, none] = 0 ∧
    is_compact [some 0, some 4, none, none, none, none] = true ∧
    (∀ f : Fingering, (∀ fg ∈ f, fg = none) → is_compact f = false) := by
  refine ⟨?_, by decide, by decide, by decide, by decide, ?_⟩
  · intro f
    unfold is_compact
    rw [decide_eq_true_iff]
    cases hL : playedFrets f with
    | nil =>
      rw [compactness_nil hL]
      constructor
      · intro h; omega
      · rintro ⟨⟨x, hx, hx1⟩, -⟩
        exfalso
        have hm : (x.val : Int) ∈ playedFrets f := mem_playedFrets.mpr ⟨x, hx, hx1, rfl⟩
        rw [hL] at hm
        simp at hm
    | cons v vs =>
      rw [compactness_cons hL]
      constructor
      · intro hspan
        constructor
        · have hv : v ∈ playedFrets f := by rw [hL]; exact List.mem_cons_self _ _
          obtain ⟨x, hx, hx1, hxv⟩ := mem_playedFrets.mp hv
          exact ⟨x, hx, hx1⟩
        · intro a b ha hb ha1 hb1
          have hma : (a.val : Int) ∈ playedFrets f := mem_playedFrets.mpr ⟨a, ha, ha1, rfl⟩
          have hmb : (b.val : Int) ∈ playedFrets f := mem_playedFrets.mpr ⟨b, hb, hb1, rfl⟩
          rw [hL] at hma hmb
          have h1 := le_foldl_max v vs _ hma
          have h2 := foldl_min_le v vs _ hmb
          omega
      · rintro ⟨-, hpair⟩
        have hmax := foldl_max_mem v vs
        have hmin := foldl_min_mem v vs
        rw [← hL] at hmax hmin
        obtain ⟨a, ha, ha1, hav⟩ := mem_playedFrets.mp hmax
        obtain ⟨b, hb, hb1, hbv⟩ := mem_playedFrets.mp hmin
        have hd := hpair a b ha hb ha1 hb1
        omega
  · intro f h
    have hnil := playedFrets_eq_nil (fun fg hfg => Or.inl (h fg hfg))
    unfold is_compact
    rw [compactness_nil hnil]
    decide

/-- Witness for C2 (amended): a fingering fretted at 1 and 2 passes. -/
theorem C2_witness : is_compact [some 1, some 2, none, none, none, none] = true :=
  (C2_compactness_amended.1 _).mpr (by decide)

/-- C3 counterexample: on the all-open fingering the `u32` score is
4294967264, not the integer value `5 - compactness + per-string sum`
(which is -32 with the code's sentinel compactness 127). -/
theorem C3_counterexample :
    ¬ ((fingering_score (List.replicate 6 (some (0 : Fin 10))) : Int)
        = 5 - compactness (List.replicate 6 (some (0 : Fin 10)))
          + stringSum (List.replicate 6 (some (0 : Fin 10)))) := by
  decide

/-- C3 (amended): the score is the base term plus the per-string terms
computed in wrapping `u32` arithmetic, i.e. reduced modulo `2^32`;
whenever the integer value is nonnegative (so for every fingering with
a fretted string) the score equals it exactly. -/
theorem C3_score_amended (f : Fingering) (hf : f.length = 6) :
    (fingering_score f : Int) = (5 - compactness f + stringSum f) % 4294967296 ∧
    (0 ≤ 5 - compactness f + stringSum f →
      (fingering_score f : Int) = 5 - compactness f + stringSum f) := by
  refine ⟨fingering_score_int f, fun hnn => ?_⟩
  rw [fingering_score_int f]
  apply Int.emod_eq_of_lt hnn
  have h1 := compactness_nonneg_or_sentinel f
  have h2 := stringSum_le f
  rw [hf] at h2
  rcases h1 with h1 | h1 <;> push_cast <;> omega

/-- Witness for C3 (amended) at the x32010 shape. -/
theorem C3_witness :
    (fingering_score x32010 : Int) = 5 - compactness x32010 + stringSum x32010 :=
  (C3_score_amended x32010 rfl).2 (by decide)

/-- C4 counterexample: at p = B and offset k = 250 the `u8` sum wraps
modulo 256, so `p + k` is F while `p + (k mod 12)` is A. -/
theorem C4_counterexample :
    ¬ (Note.addSemis Note.B 250 = Note.addSemis Note.B (250 % 12)) := by
  decide

/-- C4 (amended): pitch addition satisfies `p + k = p + (k mod 12)` for
every offset that does not overflow the `u8` sum (in particular all
k ≤ 244), and `p + 12 = p`, `p + 0 = p`. -/
theorem C4_wraparound (p : Note) (k : Nat) (h : p.val + k ≤ 255) :
    p.addSemis k = p.addSemis (k % 12) ∧ p.addSemis 12 = p ∧ p.addSemis 0 = p := by
  have hp := p.isLt
  refine ⟨Fin.ext ?_, Fin.ext ?_, Fin.ext ?_⟩
  · show (p.val + k) % 256 % 12 = (p.val + k % 12) % 256 % 12
    omega
  · show (p.val + 12) % 256 % 12 = p.val
    omega
  · show (p.val + 0) % 256 % 12 = p.val
    omega

/-- Witness for C4 (amended) at p = B, k = 244. -/
theorem C4_witness :
    Note.B.val + 244 ≤ 255 ∧ Note.addSemis Note.B 244 = Note.addSemis Note.B (244 % 12) :=
  ⟨by decide, (C4_wraparound Note.B 244 (by decide)).1⟩

/-- C8: the code's contiguity filter — contrary to the claim and to the
code's own comment — rejects `[-1,-1,0,1,-1,-1]` (it returns false as
soon as any string follows the first muted string after the sounded
run); the gap example is rejected and the all-muted fingering accepted
as the claim states. -/
theorem C8_contiguity_code_behavior :
    is_contiguous [none, none, some 0, some 1, none, none] = false ∧
    is_contiguous [some 0, none, some 1, none, none, none] = false ∧
    is_contiguous (List.replicate 6 (none : Finger)) = true := by
  decide

/-- C9: the minimum-strings filter accepts a fingering iff at least 4 of
its strings are sounded, and a fingering sounding exactly 3 strings is
always rejected. -/
theorem C9_min_strings (f : Fingering) (hf : f.length = 6) :
    (at_least_four_strings f = true ↔ 4 ≤ f.countP (fun fg => fg.isSome)) ∧
    (f.countP (fun fg => fg.isSome) = 3 → at_least_four_strings f = false) := by
  have hc : f.countP (fun fg => fg.isSome) = (f.filter (fun fg => fg.isSome)).length :=
    List.countP_eq_length_filter _ _
  constructor
  · unfold at_least_four_strings
    rw [hc, decide_eq_true_iff]
  · intro h3
    rw [hc] at h3
    unfold at_least_four_strings
    rw [h3]
    decide

/-- Witness for C9 at a 3-string fingering. -/
theorem C9_witness :
    at_least_four_strings [some 0, some 1, some 2, none, none, none] = false :=
  (C9_min_strings [some 0, some 1, some 2, none, none, none] rfl).2 (by decide)

/-- C10: a fingering whose sounded strings are all open (no string at
fret ≥ 1) gets the sentinel compactness `i8::MAX = 127` and is rejected
by the compactness filter. -/
theorem C10_all_open_sentinel (f : Fingering)
    (h : ∀ fg ∈ f, fg = none ∨ fg = some (0 : Fin 10)) :
    compactness f = 127 ∧ is_compact f = false := by
  have hnil := playedFrets_eq_nil h
  have hc := compactness_nil hnil
  refine ⟨hc, ?_⟩
  unfold is_compact
  rw [hc]
  decide

/-- Witness for C10 at the all-open fingering. -/
theorem C10_witness :
    compactness (List.replicate 6 (some (0 : Fin 10))) = 127 ∧
    is_compact (List.replicate 6 (some (0 : Fin 10))) = false :=
  C10_all_open_sentinel _ (by decide)

/-- C5: from the all-muted state the enumeration visits all 11^6 =
1,771,561 fingerings exactly once, in odometer order (the state visited
at position k is the base-11 numeral k, rightmost string least
significant, per-string cycle muted → 0 → … → 9 → muted); the step
function reports exhaustion exactly at the all-fret-9 state, whose
successor state is all-muted again; and `gen_inversions` examines
exactly this sequence. -/
theorem C5_enumeration :
    (runOdometer (11 ^ 6) (List.replicate 6 none)).length = 1771561 ∧
    (runOdometer (11 ^ 6) (List.replicate 6 none)).Nodup ∧
    (∀ f : Fingering, f.length = 6 → f ∈ runOdometer (11 ^ 6) (List.replicate 6 none)) ∧
    (∀ k : Nat, k < 1771561 →
      (runOdometer (11 ^ 6) (List.replicate 6 none)).getD k [] = unrank 6 k) ∧
    (∀ f : Fingering, f.length = 6 →
      ((next_fingering f).2 = false ↔ f = List.replicate 6 (some (9 : Fin 10)))) ∧
    (next_fingering (List.replicate 6 (some (9 : Fin 10)))).1 = List.replicate 6 none ∧
    (∀ (root : Note) (c : Chord) (t : Tuning),
      gen_inversions root c t
        = (runOdometer (11 ^ 6) (List.replicate 6 none)).filter (inversion_test root c t)) := by
  refine ⟨?_, ?_, ?_, ?_, ?_, ?_, ?_⟩
  · rw [runOdometer_allMuted]
    exact length_allFingerings
  · rw [runOdometer_allMuted]
    exact nodup_allFingerings
  · intro f hf
    rw [runOdometer_allMuted]
    exact mem_allFingerings hf
  · intro k hk
    have hk6 : k < 11 ^ 6 := by
      have h11 : (11 : Nat) ^ 6 = 1771561 := by norm_num
      omega
    rw [runOdometer_allMuted]
    unfold allFingerings
    rw [List.getD_eq_getElem?_getD, List.getElem?_map, List.getElem?_range' 0 1 hk6]
    simp
  · intro f hf
    rw [next_snd f, hf]
    constructor
    · intro hr
      have hfu : f = unrank 6 (rank f) := by rw [← hf, unrank_rank]
      rw [hfu, show rank f = 11 ^ 6 - 1 by omega]
      decide
    · intro hrepl
      subst hrepl
      decide
  · decide
  · intro root c t
    unfold gen_inversions
    rw [genLoop_eq_filter]

/-- Witness for C5: the all-muted start state is visited, and the step
function reports exhaustion at the all-fret-9 state. -/
theorem C5_witness :
    List.replicate 6 (none : Finger) ∈ runOdometer (11 ^ 6) (List.replicate 6 none) ∧
    (next_fingering (List.replicate 6 (some (9 : Fin 10)))).2 = false :=
  ⟨C5_enumeration.2.2.1 _ (by simp),
   (C5_enumeration.2.2.2.2.1 _ (by simp)).mpr rfl⟩

/-- C6: the open-heavy C-major shape x32010 is in the accepted set for
root C, Major quality, default tuning, after the inversion test and all
three playability filters (it is a member of the sorted report cell). -/
theorem C6_x32010_accepted : x32010 ∈ report Note.C Chord.Major := by
  unfold report
  rw [(List.mergeSort_perm (survivors Note.C Chord.Major) score_ge).mem_iff]
  unfold survivors
  simp only [List.mem_filter]
  refine ⟨⟨⟨?_, by decide⟩, by decide⟩, by decide⟩
  rw [mem_gen_inversions (show x32010.length = 6 from rfl)]
  decide

/-- C7: each report cell is a permutation of the filter survivors,
sorted in descending score order, and stable: fingerings of any given
score appear in exactly their encounter order (the filtered
subsequences agree). -/
theorem C7_report_sorted_stable (root : Note) (c : Chord) :
    (report root c).Perm (survivors root c) ∧
    (report root c).Pairwise (fun a b => fingering_score b ≤ fingering_score a) ∧
    (∀ s : Nat, (report root c).filter (fun f => fingering_score f = s)
        = (survivors root c).filter (fun f => fingering_score f = s)) := by
  have htrans : ∀ a b d : Fingering, score_ge a b → score_ge b d → score_ge a d := by
    intro a b d hab hbd
    simp only [score_ge, decide_eq_true_iff] at *
    omega
  have htotal : ∀ a b : Fingering, score_ge a b || score_ge b a := by
    intro a b
    simp only [score_ge, Bool.or_eq_true, decide_eq_true_iff]
    omega
  refine ⟨List.mergeSort_perm _ _, ?_, ?_⟩
  · unfold report
    have hs := List.sorted_mergeSort htrans htotal (survivors root c)
    exact hs.imp fun hab => by simpa [score_ge, decide_eq_true_iff] using hab
  · intro s
    have hperm :
        ((report root c).filter (fun f => fingering_score f = s)).Perm
          ((survivors root c).filter (fun f => fingering_score f = s)) :=
      (List.mergeSort_perm (survivors root c) score_ge).filter _
    have hpair :
        ((survivors root c).filter (fun f => fingering_score f = s)).Pairwise
          (fun a b => score_ge a b = true) := by
      apply List.pairwise_of_forall_mem_list
      intro a ha b hb
      have ha2 := (List.mem_filter.mp ha).2
      have hb2 := (List.mem_filter.mp hb).2
      simp only [decide_eq_true_iff] at ha2 hb2
      simp only [score_ge, decide_eq_true_iff, ha2, hb2]
      omega
    have hsub : List.Sublist ((survivors root c).filter (fun f => fingering_score f = s))
        (report root c) :=
      List.sublist_mergeSort htrans htotal hpair (List.filter_sublist _)
    have hidem :
        ((survivors root c).filter (fun f => fingering_score f = s)).filter
            (fun f => fingering_score f = s)
          = (survivors root c).filter (fun f => fingering_score f = s) :=
      List.filter_eq_self.mpr fun a ha => (List.mem_filter.mp ha).2
    have hsub2 :
        List.Sublist ((survivors root c).filter (fun f => fingering_score f = s))
          ((report root c).filter (fun f => fingering_score f = s)) :=
      hidem ▸ hsub.filter (fun f => fingering_score f = s)
    exact (hsub2.eq_of_length hperm.length_eq.symm).symm

end ChordGen
